import Mathlib

/-!
Shallow embedding of the cascade/merge core of the `toasty` tile-pyramid
library (files `toasty/pyramid.py`, `toasty/merge.py`, `toasty/image.py`),
together with theorems settling the specification claims about it.

Machine integers of the source are modelled as `Nat`; Python exceptions as
`Except String`; Python dictionaries with `get(key, 0)` access as functions
into `Option Nat`; Numpy float buffers as functions into `Option ℚ`, where
`none` models NaN (the absent-value sentinel of floating-point modes) and
`some q` a finite value.
-/

namespace Toasty

/-- Tile position, `Pos = namedtuple('Pos', 'n x y')` from `toasty/pyramid.py`:
depth `n` and coordinates `x`, `y` within the level. -/
structure Pos where
  n : Nat
  x : Nat
  y : Nat
deriving DecidableEq, Repr

/-- The pyramid root, `Pos(0, 0, 0)`. -/
def rootPos : Pos := ⟨0, 0, 0⟩

/-- A tile position is within range for its depth (spec section 3 invariant). -/
def validPos (p : Pos) : Prop := p.x < 2 ^ p.n ∧ p.y < 2 ^ p.n

instance (p : Pos) : Decidable (validPos p) := by unfold validPos; infer_instance

/-- `depth2tiles` from `toasty/pyramid.py`: total number of tiles in a pyramid
of the given depth, `(4 ** (depth + 1) - 1) // 3`. -/
def depth2tiles (depth : Nat) : Nat := (4 ^ (depth + 1) - 1) / 3

/-- `pos_parent` from `toasty/pyramid.py`: the parent of a tile position along
with the child's indices within the parent. Raises `ValueError` when
`pos.n < 1`. -/
def pos_parent (pos : Pos) : Except String (Pos × Nat × Nat) :=
  if pos.n < 1 then
    Except.error "ValueError: cannot take the parent of a tile position with depth < 1"
  else
    Except.ok (⟨pos.n - 1, pos.x / 2, pos.y / 2⟩, pos.x % 2, pos.y % 2)

/-- The parent position by itself, total; used only where the code has already
established `pos.n ≥ 1` (the dispatcher checks `pos.n == 0` before calling
`pos_parent`). -/
def parentPos (pos : Pos) : Pos := ⟨pos.n - 1, pos.x / 2, pos.y / 2⟩

/-- `is_subtile` from `toasty/pyramid.py`, modelled faithfully to the source:
the equal-depth cases work, but the strictly-deeper case evaluates
`_parent(deeper_pos)`, and no `_parent` is defined anywhere in the module, so
that branch raises `NameError` at run time. -/
def is_subtile (deeper_pos shallower_pos : Pos) : Except String Bool :=
  if deeper_pos.n < shallower_pos.n then
    Except.error "ValueError: deeper_pos has a lower depth than shallower_pos"
  else if deeper_pos.n = shallower_pos.n then
    Except.ok (decide (deeper_pos.x = shallower_pos.x ∧ deeper_pos.y = shallower_pos.y))
  else
    Except.error "NameError: name _parent is not defined"

/-- The intended `is_subtile`, as its docstring, its unit test
(`test_is_subtile` expects `is_subtile(Pos(2,0,0), Pos(1,0,0)) == True`) and
the spec describe it: recursively take parents of the deeper position until the
depths match, then compare. -/
def is_subtile_intended (deeper_pos shallower_pos : Pos) : Except String Bool :=
  if _h1 : deeper_pos.n < shallower_pos.n then
    Except.error "ValueError: deeper_pos has a lower depth than shallower_pos"
  else if _h2 : deeper_pos.n = shallower_pos.n then
    Except.ok (decide (deeper_pos.x = shallower_pos.x ∧ deeper_pos.y = shallower_pos.y))
  else
    is_subtile_intended (parentPos deeper_pos) shallower_pos
termination_by deeper_pos.n - shallower_pos.n
decreasing_by
  simp only [parentPos]
  omega

/-- The four children of a tile, in readiness-bit order: the child at offset
`(a, b)` within the parent occupies list index `2*b + a`.

Modelled from the spec: `pos_children` is imported by `toasty/merge.py` from
`toasty.pyramid` but is absent from `src/toasty/pyramid.py`. Spec section 3:
"Every address has exactly four children at `depth+1`: `(2x+{0,1}, 2y+{0,1})`";
the order matches the readiness-bit formula `2*(y mod 2) + (x mod 2)` used in
`merge.py` and the order observed by `test_generate_pos`. -/
def pos_children (pos : Pos) : List Pos :=
  [ ⟨pos.n + 1, 2 * pos.x,     2 * pos.y⟩
  , ⟨pos.n + 1, 2 * pos.x + 1, 2 * pos.y⟩
  , ⟨pos.n + 1, 2 * pos.x,     2 * pos.y + 1⟩
  , ⟨pos.n + 1, 2 * pos.x + 1, 2 * pos.y + 1⟩ ]

/-! ### The merge function (`averaging_merger`, `toasty/merge.py` lines 56-75)

`averaging_merger` reshapes the `(512, 512, ...)` combined buffer to
`(256, 2, 256, 2, ...)` and applies `np.nanmean` over axes `(1, 3)`, then
casts back to the input dtype. We embed its two instantiations: the
floating-point maskable mode `F32` (pixels are `Option ℚ`, with `none`
modelling NaN, which is the sentinel that `fill_into_maskable_buffer` uses via
`b.fill(np.nan)`) and the bitmap maskable mode RGBA (pixels are four `uint8`
channels; `fill_into_maskable_buffer` uses `b.fill(0)`, so the sentinel is the
all-zero pixel with alpha 0). -/

/-- An RGBA pixel with `uint8` channels (values below 256). -/
structure RGBA8 where
  r : Nat
  g : Nat
  b : Nat
  a : Nat
deriving DecidableEq, Repr

/-- The absent-value sentinel of the bitmap maskable modes: the buffer is
prefilled with `b.fill(0)` in `Image.fill_into_maskable_buffer`
(`toasty/image.py` lines 422-428), so absent pixels are all-zero with
alpha 0. -/
def rgba_sentinel : RGBA8 := ⟨0, 0, 0, 0⟩

/-- The `np.nanmean` of a quartet of floating-point values: the mean of the
defined (non-NaN) values, or NaN (`none`) when all four are NaN. -/
def nanmean4 (a b c d : Option ℚ) : Option ℚ :=
  let vs := ([a, b, c, d]).filterMap id
  if vs = [] then none else some (vs.sum / vs.length)

/-- Index `2*i` of the combined buffer row/column pair belonging to output
index `i` (the reshape `(512,) → (256, 2)` of `averaging_merger`). -/
def dbl0 (i : Fin 256) : Fin 512 := ⟨2 * i.val, by have := i.isLt; omega⟩

/-- Index `2*i + 1` of the combined buffer pair belonging to output index
`i`. -/
def dbl1 (i : Fin 256) : Fin 512 := ⟨2 * i.val + 1, by have := i.isLt; omega⟩

/-- `averaging_merger` instantiated at mode F32: each output pixel is the
`np.nanmean` of the corresponding non-overlapping 2x2 block. -/
def averaging_merger_f32 (data : Fin 512 → Fin 512 → Option ℚ)
    (i j : Fin 256) : Option ℚ :=
  nanmean4 (data (dbl0 i) (dbl0 j)) (data (dbl0 i) (dbl1 j))
    (data (dbl1 i) (dbl0 j)) (data (dbl1 i) (dbl1 j))

/-- The `np.nanmean` of four `uint8` values followed by `.astype(uint8)`:
no value is NaN, so all four are averaged; the float64 mean of four values
below 256 is exact and the cast truncates, giving floor division by 4. -/
def mean4_u8 (a b c d : Nat) : Nat := (a + b + c + d) / 4

/-- `averaging_merger` instantiated at the RGBA bitmap mode: `np.nanmean`
averages each channel of the 2x2 block over all four pixels (a `uint8` array
holds no NaN, so nothing is skipped), then casts back to `uint8`. -/
def averaging_merger_rgba (data : Fin 512 → Fin 512 → RGBA8)
    (i j : Fin 256) : RGBA8 :=
  let p0 := data (dbl0 i) (dbl0 j)
  let p1 := data (dbl0 i) (dbl1 j)
  let p2 := data (dbl1 i) (dbl0 j)
  let p3 := data (dbl1 i) (dbl1 j)
  ⟨mean4_u8 p0.r p1.r p2.r p3.r, mean4_u8 p0.g p1.g p2.g p3.g,
   mean4_u8 p0.b p1.b p2.b p3.b, mean4_u8 p0.a p1.a p2.a p3.a⟩

/-! ### Tile processing (`_process_tile`, `toasty/merge.py` lines 167-199)

`_process_tile` reads the four children of a position from the tile store; if
all four are absent it returns without writing; otherwise it assembles the
512x512 maskable buffer (quadrants of present children, sentinel elsewhere),
applies the merger, computes the min/max side channel, and writes the result
at the position. The store is a map from positions to optional tiles; the
composite of buffer assembly, merger and min/max bookkeeping is a pure
function of the four optional child tiles, kept abstract as `f`. -/

/-- A tile store: `PyramidIO` contents as a map from positions to optional
tiles (`read_image` with `default="none"` yields `none` for absent tiles). -/
def Store (α : Type) := Pos → Option α

/-- One `_process_tile` call on the store: read the four children
(`children[0]` to `children[3]` of `pos_children pos`, written out), skip when
all four are absent, otherwise write the merged value at `pos`. -/
def _process_tile {α : Type} (f : Option α → Option α → Option α → Option α → α)
    (s : Store α) (pos : Pos) : Store α :=
  if (s ⟨pos.n + 1, 2 * pos.x, 2 * pos.y⟩).isNone &&
      (s ⟨pos.n + 1, 2 * pos.x + 1, 2 * pos.y⟩).isNone &&
      (s ⟨pos.n + 1, 2 * pos.x, 2 * pos.y + 1⟩).isNone &&
      (s ⟨pos.n + 1, 2 * pos.x + 1, 2 * pos.y + 1⟩).isNone then s
  else fun q =>
    if q = pos then
      some (f (s ⟨pos.n + 1, 2 * pos.x, 2 * pos.y⟩)
        (s ⟨pos.n + 1, 2 * pos.x + 1, 2 * pos.y⟩)
        (s ⟨pos.n + 1, 2 * pos.x, 2 * pos.y + 1⟩)
        (s ⟨pos.n + 1, 2 * pos.x + 1, 2 * pos.y + 1⟩))
    else s q

/-! ### The parallel-cascade dispatcher (`_cascade_images_parallel`,
`toasty/merge.py` lines 297-326)

The dispatcher loop pops finished positions from the done queue. A root
report breaks the loop. For any other report it computes the parent and bit
index via `pos_parent`, ORs the bit into the parent's tracker entry
(`readiness.get(ppos, 0)`), and either pushes the parent onto the ready queue
while popping its entry (when the mask reaches `0xF`) or stores the updated
mask. We model the tracker as the Python dictionary it is (`none` for an
absent key) and the loop as a function of the sequence of done reports. -/

/-- The readiness tracker: the dispatcher's `readiness` dictionary, mapping a
parent position to its 4-bit mask; `none` models an absent key. -/
def Readiness := Pos → Option Nat

/-- The tracker at dispatcher start-up for an unfiltered cascade: the empty
dictionary `readiness = {}`. -/
def empty_readiness : Readiness := fun _ => none

/-- The loop body of the dispatcher for one non-root done report
(`toasty/merge.py` lines 315-326): returns the updated tracker and the parent
pushed onto the ready queue, if any. -/
def dispatch_step (r : Readiness) (pos : Pos) : Readiness × Option Pos :=
  if ((r (parentPos pos)).getD 0 ||| (1 <<< (2 * (pos.y % 2) + pos.x % 2))) = 0xF then
    (fun q => if q = parentPos pos then none else r q, some (parentPos pos))
  else
    (fun q => if q = parentPos pos then
        some ((r (parentPos pos)).getD 0 ||| (1 <<< (2 * (pos.y % 2) + pos.x % 2)))
      else r q, none)

/-- The dispatcher loop over a sequence of done reports: processes reports in
order, terminating at the first root report (`pos.n == 0`). Returns the final
tracker, the positions pushed onto the ready queue in order, and whether the
loop terminated via a root report. -/
def dispatch_run (r : Readiness) : List Pos → Readiness × List Pos × Bool
  | [] => (r, [], false)
  | pos :: rest =>
    if pos.n = 0 then (r, [], true)
    else
      ((dispatch_run (dispatch_step r pos).1 rest).1,
       (dispatch_step r pos).2.toList ++ (dispatch_run (dispatch_step r pos).1 rest).2.1,
       (dispatch_run (dispatch_step r pos).1 rest).2.2)

/-- The readiness bit a done report `d` contributes to the entry of parent
`q` : `1 <<< (2*(y mod 2) + (x mod 2))` when `q` is the parent of `d`, else no
bit. -/
def report_bit (q d : Pos) : Nat :=
  if d.n ≠ 0 ∧ parentPos d = q then 1 <<< (2 * (d.y % 2) + d.x % 2) else 0

/-- The accumulated readiness bits parent `q` receives from a list of done
reports. -/
def reported_mask (q : Pos) : List Pos → Nat
  | [] => 0
  | d :: rest => report_bit q d ||| reported_mask q rest

/-- The tracker contents the dispatcher maintains for parent `q` after a list
of done reports: no entry while no bit or after dispatch (mask `0xF`), the
accumulated mask otherwise. -/
def mask_state (q : Pos) (done : List Pos) : Option Nat :=
  if reported_mask q done = 0 ∨ reported_mask q done = 0xF then none
  else some (reported_mask q done)

/-- The five done reports of the duplicate-report scenario: the four children
of the root, followed by a duplicate report of the first child. -/
def duplicate_report_run : List Pos :=
  [⟨1, 0, 0⟩, ⟨1, 1, 0⟩, ⟨1, 0, 1⟩, ⟨1, 1, 1⟩, ⟨1, 0, 0⟩]

/-! ### Readiness seeding for filtered cascades (`_initiate_readiness_state`,
`toasty/merge.py` lines 368-389)

For a filtered cascade, siblings outside the filtered set will never be
computed, so their readiness bits are pre-set before processing begins, one
ancestor generation at a time up to the root. -/

/-- Modelled from the spec: `get_parents` is imported by `toasty/merge.py`
from `toasty.pyramid` but is absent from `src/toasty/pyramid.py`. With
`get_all_ancestors=False`, as called by `_initiate_readiness_state`, it
returns one ancestor-parent generation: the set of immediate parents of the
given tiles (spec section 9 calls this recursing "one ancestor-parent-
generation at a time"); `pos_parent` raises on a depth-0 member. -/
def get_parents (tiles : Finset Pos) : Finset Pos := tiles.image parentPos

/-- The readiness bits `_initiate_readiness_state` accumulates for one parent:
bit `2*(child.y mod 2) + child.x mod 2` for each of the four children that is
outside the set of tiles to process. -/
def missing_mask (parent : Pos) (tiles : Finset Pos) : Nat :=
  (pos_children parent).foldl
    (fun m c => if c ∈ tiles then m else m ||| (1 <<< (2 * (c.y % 2) + c.x % 2))) 0

/-- One bit-setting pass of `_initiate_readiness_state` over the parents of
the current generation: a parent with at least one missing child gets its
entry (`readiness.get(parent, 0)`) ORed with the missing-children bits; a
parent with no missing child is untouched (no entry is created). -/
def seed_pass (tiles parents : Finset Pos) (r : Readiness) : Readiness :=
  fun p =>
    if p ∈ parents ∧ missing_mask p tiles ≠ 0 then
      some ((r p).getD 0 ||| missing_mask p tiles)
    else r p

/-- `_initiate_readiness_state` from `toasty/merge.py`: recursively pre-sets,
one ancestor generation at a time, the readiness bits of children outside the
processed set, stopping on an empty set or one containing the pyramid root; a
depth-0 non-root member makes `get_parents`/`pos_parent` raise `ValueError`. -/
def _initiate_readiness_state (tiles_to_process : Finset Pos)
    (readiness : Readiness) : Except String Readiness :=
  if hbase : tiles_to_process = ∅ ∨ rootPos ∈ tiles_to_process then
    Except.ok readiness
  else if hz : ∃ p ∈ tiles_to_process, p.n = 0 then
    Except.error "ValueError: cannot take the parent of a tile position with depth < 1"
  else
    _initiate_readiness_state (get_parents tiles_to_process)
      (seed_pass tiles_to_process (get_parents tiles_to_process) readiness)
termination_by tiles_to_process.sup (fun p => p.n)
decreasing_by
  push_neg at hbase hz
  have hne : tiles_to_process.Nonempty :=
    Finset.nonempty_iff_ne_empty.mpr hbase.1
  obtain ⟨p₀, hp₀⟩ := hne
  have h1 : 1 ≤ tiles_to_process.sup (fun p => p.n) := by
    have hz0 := hz p₀ hp₀
    exact le_trans (Nat.one_le_iff_ne_zero.mpr hz0)
      (Finset.le_sup (f := fun p : Pos => p.n) hp₀)
  have h2 : (get_parents tiles_to_process).sup (fun p => p.n) ≤
      tiles_to_process.sup (fun p => p.n) - 1 := by
    apply Finset.sup_le
    intro q hq
    simp only [get_parents] at hq
    obtain ⟨p, hp, hpq⟩ := Finset.mem_image.mp hq
    rw [← hpq]
    simp only [parentPos]
    exact Nat.sub_le_sub_right (Finset.le_sup (f := fun p : Pos => p.n) hp) 1
  omega

/-- Iterated ancestor generations of a tile set: generation 0 is the set
itself, generation `k+1` the parents of generation `k`. -/
def gen (S : Finset Pos) : Nat → Finset Pos
  | 0 => S
  | k + 1 => get_parents (gen S k)

/-- The readiness tracker `_initiate_readiness_state` is expected to build
over a uniform-depth-`d` tile set: each ancestor in generation `d - a.n` with
at least one child outside the previous generation carries the mask of those
missing children. -/
def seeded_from (S : Finset Pos) (d : Nat) (r : Readiness) : Readiness :=
  fun a =>
    if a.n < d ∧ a ∈ gen S (d - a.n) ∧ missing_mask a (gen S (d - a.n - 1)) ≠ 0 then
      some ((r a).getD 0 ||| missing_mask a (gen S (d - a.n - 1)))
    else r a

/-! ### Cascade schedules (`_cascade_images_serial` and
`_cascade_images_parallel`, `toasty/merge.py`)

Both cascades call `_process_tile` once for every position at depths
`start-1` down to `0`: the serial cascade in the deterministic
`generate_pos(start-1)` order, the parallel cascade in whatever order ready
tiles are picked up by workers, constrained by the dispatcher to respect the
child-before-parent dependency. A cascade run is the fold of `_process_tile`
over its processing order. -/

/-- Run `_process_tile` over the tile store in the given processing order. -/
def run_schedule {α : Type} (f : Option α → Option α → Option α → Option α → α)
    (s : Store α) : List Pos → Store α
  | [] => s
  | p :: rest => run_schedule f (_process_tile f s p) rest

/-- All tile positions of one pyramid level, x fastest.

Modelled from the spec: `generate_pos` is imported by `toasty/merge.py` from
`toasty.pyramid` but absent from `src/toasty/pyramid.py`; spec section 4.4
requires visiting every address's four children before the address itself,
"satisfied trivially by a standard breadth-first, level-by-level,
deepest-first traversal" — `level_positions` lists one level in the x-fastest
order shown by `test_generate_pos`. -/
def level_positions (d : Nat) : List Pos :=
  (List.range (2 ^ d)).flatMap fun y => (List.range (2 ^ d)).map fun x => ⟨d, x, y⟩

/-- The serial cascade's processing order: whole levels, deepest first
(`start-1` down to `0`), per spec section 4.4. -/
def serial_order : Nat → List Pos
  | 0 => []
  | s + 1 => level_positions s ++ serial_order s

/-- A valid ready order for a cascade from `start`, abstracting the parallel
dispatcher: every processed position is at depth below `start`, no position
is processed twice, and a position is processed only after each of its
children that is itself subject to processing (depth below `start`) has been
processed; `done` accumulates the positions processed so far. -/
def ready_order (start : Nat) : List Pos → List Pos → Bool
  | _done, [] => true
  | done, p :: rest =>
    decide (p.n < start) && decide (p ∉ done) &&
      ((pos_children p).all fun c => decide (c.n < start → c ∈ done)) &&
      ready_order start (p :: done) rest

/-- The order-independent result of a cascade from depth `start` over input
store `s`: positions at depth at least `start` keep their input tiles; a
shallower position gets the merge of its children's results, or stays at its
input value when all four children's results are absent. -/
def cascade_expected {α : Type} (f : Option α → Option α → Option α → Option α → α)
    (s : Store α) (start : Nat) (pos : Pos) : Option α :=
  if _h : start ≤ pos.n then s pos
  else
    if (cascade_expected f s start ⟨pos.n + 1, 2 * pos.x, 2 * pos.y⟩).isNone &&
        (cascade_expected f s start ⟨pos.n + 1, 2 * pos.x + 1, 2 * pos.y⟩).isNone &&
        (cascade_expected f s start ⟨pos.n + 1, 2 * pos.x, 2 * pos.y + 1⟩).isNone &&
        (cascade_expected f s start ⟨pos.n + 1, 2 * pos.x + 1, 2 * pos.y + 1⟩).isNone then
      s pos
    else
      some (f (cascade_expected f s start ⟨pos.n + 1, 2 * pos.x, 2 * pos.y⟩)
        (cascade_expected f s start ⟨pos.n + 1, 2 * pos.x + 1, 2 * pos.y⟩)
        (cascade_expected f s start ⟨pos.n + 1, 2 * pos.x, 2 * pos.y + 1⟩)
        (cascade_expected f s start ⟨pos.n + 1, 2 * pos.x + 1, 2 * pos.y + 1⟩))
termination_by start - pos.n
decreasing_by all_goals omega

/-- A concrete 512x512 RGBA combined buffer whose top-left 2x2 block holds one
defined pixel `(100, 100, 100, 255)` and three absent-value sentinels. -/
def c2_bitmap_buf : Fin 512 → Fin 512 → RGBA8 :=
  fun i j => if i.val = 0 ∧ j.val = 0 then ⟨100, 100, 100, 255⟩ else rgba_sentinel

/-- Claim C9: `depth2tiles` returns exactly `(4^(depth+1) - 1) / 3` as an exact
integer (the division has no remainder), and concretely returns 1, 5, 21 and
1398101 at depths 0, 1, 2 and 10. -/
theorem depth2tiles_exact :
    (∀ depth : Nat, depth2tiles depth * 3 = 4 ^ (depth + 1) - 1) ∧
    depth2tiles 0 = 1 ∧ depth2tiles 1 = 5 ∧ depth2tiles 2 = 21 ∧
    depth2tiles 10 = 1398101 := by
  refine ⟨fun depth => ?_, by decide, by decide, by decide, by norm_num [depth2tiles]⟩
  have h : ∀ d : Nat, 3 ∣ 4 ^ (d + 1) - 1 := by
    intro d
    induction d with
    | zero => decide
    | succ k ih =>
      obtain ⟨m, hm⟩ := ih
      have h4 : 1 ≤ 4 ^ (k + 1) := Nat.one_le_pow _ _ (by norm_num)
      refine ⟨4 * m + 1, ?_⟩
      have : 4 ^ (k + 1 + 1) = 4 * 4 ^ (k + 1) := by ring
      omega
  have := h depth
  unfold depth2tiles
  omega

/-- Claim C6: for every position of depth at least 1, `pos_parent` succeeds,
returning the parent `(n-1, x/2, y/2)` with child indices `(x mod 2, y mod 2)`,
and rebuilding the child from the parent and the indices reconstructs the
original position exactly. -/
theorem pos_parent_roundtrip (pos : Pos) (h : 1 ≤ pos.n) :
    ∃ parent x_index y_index,
      pos_parent pos = Except.ok (parent, x_index, y_index) ∧
      parent = ⟨pos.n - 1, pos.x / 2, pos.y / 2⟩ ∧
      x_index = pos.x % 2 ∧ y_index = pos.y % 2 ∧
      (⟨parent.n + 1, 2 * parent.x + x_index, 2 * parent.y + y_index⟩ : Pos) = pos := by
  refine ⟨⟨pos.n - 1, pos.x / 2, pos.y / 2⟩, pos.x % 2, pos.y % 2, ?_, rfl, rfl, rfl, ?_⟩
  · unfold pos_parent
    rw [if_neg (by omega)]
  · obtain ⟨n, x, y⟩ := pos
    simp only [Pos.mk.injEq]
    refine ⟨by simp at h; omega, by omega, by omega⟩

/-- Witness for `pos_parent_roundtrip` at the concrete position `(7, 65, 33)`
used by `test_pos_parent`. -/
theorem pos_parent_roundtrip_witness :
    ∃ parent x_index y_index,
      pos_parent ⟨7, 65, 33⟩ = Except.ok (parent, x_index, y_index) ∧
      parent = ⟨6, 32, 16⟩ ∧
      x_index = 65 % 2 ∧ y_index = 33 % 2 ∧
      (⟨parent.n + 1, 2 * parent.x + x_index, 2 * parent.y + y_index⟩ : Pos) = ⟨7, 65, 33⟩ := by
  have h := pos_parent_roundtrip ⟨7, 65, 33⟩ (by decide)
  obtain ⟨p, xi, yi, h1, h2, h3, h4, h5⟩ := h
  exact ⟨p, xi, yi, h1, h2, h3, h4, h5⟩

/-- Claim C8, evaluated at the failing input: by the source as written,
`is_subtile(Pos(2,0,0), Pos(1,0,0))` raises `NameError` (the recursive branch
calls the undefined name `_parent`), although the precondition
`deeper_pos.n ≥ shallower_pos.n` holds; the module's own unit test
`test_is_subtile` expects `True` here, and the intended recursion (modelled by
`is_subtile_intended`) indeed returns `true`. `pos_parent` itself does satisfy
the claim: it fails exactly on depth-0 inputs. -/
theorem is_subtile_name_error :
    is_subtile ⟨2, 0, 0⟩ ⟨1, 0, 0⟩ =
      Except.error "NameError: name _parent is not defined" ∧
    is_subtile_intended ⟨2, 0, 0⟩ ⟨1, 0, 0⟩ = Except.ok true ∧
    (∀ pos : Pos, (∃ e, pos_parent pos = Except.error e) ↔ pos.n = 0) := by
  refine ⟨rfl, ?_, fun pos => ?_⟩
  · rw [is_subtile_intended, dif_neg (by decide), dif_neg (by decide),
      is_subtile_intended, dif_neg (by decide), dif_pos (by decide)]
    rfl
  · constructor
    · rintro ⟨e, he⟩
      by_contra hn
      unfold pos_parent at he
      rw [if_neg (by omega)] at he
      exact absurd he (by simp)
    · intro h0
      exact ⟨_, by unfold pos_parent; rw [if_pos (by omega)]⟩

/-- Helper: `np.nanmean` of a quartet is NaN exactly when all four inputs are
NaN. -/
theorem nanmean4_none_iff (a b c d : Option ℚ) :
    nanmean4 a b c d = none ↔ a = none ∧ b = none ∧ c = none ∧ d = none := by
  rcases a with _ | va <;> rcases b with _ | vb <;> rcases c with _ | vc <;>
    rcases d with _ | vd <;> simp [nanmean4]

/-- Helper: `np.nanmean` of a quartet with exactly one defined value returns
that value. -/
theorem nanmean4_one_defined (v : ℚ) :
    nanmean4 (some v) none none none = some v ∧
    nanmean4 none (some v) none none = some v ∧
    nanmean4 none none (some v) none = some v ∧
    nanmean4 none none none (some v) = some v := by
  refine ⟨?_, ?_, ?_, ?_⟩ <;> simp [nanmean4]

/-- Claim C2 fails on the code for bitmap modes: `averaging_merger` is
`np.nanmean`, which ignores NaN but not the alpha-0 bitmap sentinel, so a
2x2 RGBA block with three sentinels and one defined pixel
`(100, 100, 100, 255)` averages all four values and yields `(25, 25, 25, 63)`,
which is neither the defined value nor the sentinel. -/
theorem averaging_merger_bitmap_counterexample :
    averaging_merger_rgba c2_bitmap_buf 0 0 = ⟨25, 25, 25, 63⟩ ∧
    (⟨25, 25, 25, 63⟩ : RGBA8) ≠ ⟨100, 100, 100, 255⟩ ∧
    (⟨25, 25, 25, 63⟩ : RGBA8) ≠ rgba_sentinel := by
  decide

/-- Claim C2 as amended: in the floating-point mode, `averaging_merger`
reduces each non-overlapping 2x2 block ignoring NaN sentinels — it emits NaN
if and only if all four values of the block are NaN, and a block with three
NaN values and one defined value yields the defined value (whichever of the
four positions holds it). -/
theorem averaging_merger_sentinel_propagation
    (data : Fin 512 → Fin 512 → Option ℚ) (i j : Fin 256) :
    (averaging_merger_f32 data i j = none ↔
      data (dbl0 i) (dbl0 j) = none ∧ data (dbl0 i) (dbl1 j) = none ∧
      data (dbl1 i) (dbl0 j) = none ∧ data (dbl1 i) (dbl1 j) = none) ∧
    (∀ v : ℚ,
      ((data (dbl0 i) (dbl0 j) = some v ∧ data (dbl0 i) (dbl1 j) = none ∧
        data (dbl1 i) (dbl0 j) = none ∧ data (dbl1 i) (dbl1 j) = none) ∨
       (data (dbl0 i) (dbl0 j) = none ∧ data (dbl0 i) (dbl1 j) = some v ∧
        data (dbl1 i) (dbl0 j) = none ∧ data (dbl1 i) (dbl1 j) = none) ∨
       (data (dbl0 i) (dbl0 j) = none ∧ data (dbl0 i) (dbl1 j) = none ∧
        data (dbl1 i) (dbl0 j) = some v ∧ data (dbl1 i) (dbl1 j) = none) ∨
       (data (dbl0 i) (dbl0 j) = none ∧ data (dbl0 i) (dbl1 j) = none ∧
        data (dbl1 i) (dbl0 j) = none ∧ data (dbl1 i) (dbl1 j) = some v)) →
      averaging_merger_f32 data i j = some v) := by
  constructor
  · exact nanmean4_none_iff _ _ _ _
  · intro v h
    unfold averaging_merger_f32
    rcases h with ⟨h1, h2, h3, h4⟩ | ⟨h1, h2, h3, h4⟩ | ⟨h1, h2, h3, h4⟩ |
      ⟨h1, h2, h3, h4⟩ <;> rw [h1, h2, h3, h4]
    · exact (nanmean4_one_defined v).1
    · exact (nanmean4_one_defined v).2.1
    · exact (nanmean4_one_defined v).2.2.1
    · exact (nanmean4_one_defined v).2.2.2

/-- Witness for `averaging_merger_sentinel_propagation`: a concrete F32 buffer
whose top-left block has one defined value 7 and three NaN values reduces to
7 at the top-left output pixel. -/
theorem averaging_merger_sentinel_propagation_witness :
    averaging_merger_f32
      (fun i j => if i.val = 0 ∧ j.val = 0 then some 7 else none) 0 0 = some 7 :=
  (averaging_merger_sentinel_propagation
      (fun i j => if i.val = 0 ∧ j.val = 0 then some 7 else none) 0 0).2 7
    (Or.inl ⟨by norm_num [dbl0], by norm_num [dbl0, dbl1], by norm_num [dbl0, dbl1],
      by norm_num [dbl1]⟩)

/-- Claim C7: processing a position all four of whose children are absent from
the tile store performs no merge and writes nothing: the store is returned
unchanged (the address is skipped, which is not an error). -/
theorem process_tile_all_absent_skips {α : Type}
    (f : Option α → Option α → Option α → Option α → α) (s : Store α) (pos : Pos)
    (h : ∀ c ∈ pos_children pos, s c = none) :
    _process_tile f s pos = s := by
  have h0 := h ⟨pos.n + 1, 2 * pos.x, 2 * pos.y⟩ (by simp [pos_children])
  have h1 := h ⟨pos.n + 1, 2 * pos.x + 1, 2 * pos.y⟩ (by simp [pos_children])
  have h2 := h ⟨pos.n + 1, 2 * pos.x, 2 * pos.y + 1⟩ (by simp [pos_children])
  have h3 := h ⟨pos.n + 1, 2 * pos.x + 1, 2 * pos.y + 1⟩ (by simp [pos_children])
  simp [_process_tile, h0, h1, h2, h3]

/-- Witness for `process_tile_all_absent_skips`: processing the root of an
entirely empty tile store leaves the store unchanged. -/
theorem process_tile_all_absent_skips_witness :
    _process_tile (fun _ _ _ _ => (0 : Nat)) (fun _ => none) rootPos =
      (fun _ => none) :=
  process_tile_all_absent_skips _ _ _ (fun _ _ => rfl)

/-- Helper: a done report contributes a bit below `2^4`. -/
theorem report_bit_lt (q d : Pos) : report_bit q d < 16 := by
  unfold report_bit
  split
  · rw [Nat.one_shiftLeft]
    calc (2 : Nat) ^ (2 * (d.y % 2) + d.x % 2) < 2 ^ 4 :=
          Nat.pow_lt_pow_right (by norm_num) (by omega)
      _ = 16 := by norm_num
  · omega

/-- Helper: an accumulated readiness mask stays below `2^4`. -/
theorem reported_mask_lt (q : Pos) (ds : List Pos) : reported_mask q ds < 16 := by
  induction ds with
  | nil => simp [reported_mask]
  | cons d rest ih =>
    rw [reported_mask]
    have h1 : report_bit q d < 2 ^ 4 := by simpa using report_bit_lt q d
    have h2 : reported_mask q rest < 2 ^ 4 := by simpa using ih
    simpa using Nat.or_lt_two_pow h1 h2

/-- Helper: the reported mask distributes over list append. -/
theorem reported_mask_append (q : Pos) (l1 l2 : List Pos) :
    reported_mask q (l1 ++ l2) = reported_mask q l1 ||| reported_mask q l2 := by
  induction l1 with
  | nil => simp [reported_mask]
  | cons d rest ih => simp [reported_mask, ih, Nat.or_assoc]

/-- Helper: two non-root done reports with the same parent and the same
readiness bit are the same position. -/
theorem report_inj {d1 d2 q : Pos} (h1 : d1.n ≠ 0) (h2 : d2.n ≠ 0)
    (hp1 : parentPos d1 = q) (hp2 : parentPos d2 = q)
    (hb : 2 * (d1.y % 2) + d1.x % 2 = 2 * (d2.y % 2) + d2.x % 2) : d1 = d2 := by
  obtain ⟨n1, x1, y1⟩ := d1
  obtain ⟨n2, x2, y2⟩ := d2
  rw [← hp2] at hp1
  simp only [parentPos, Pos.mk.injEq] at hp1
  simp only at h1 h2 hb
  simp only [Pos.mk.injEq]
  omega

/-- Helper: a set readiness bit comes from an actual report in the list. -/
theorem reported_mask_testBit {q : Pos} {ds : List Pos} {b : Nat}
    (h : (reported_mask q ds).testBit b = true) :
    ∃ d ∈ ds, d.n ≠ 0 ∧ parentPos d = q ∧ 2 * (d.y % 2) + d.x % 2 = b := by
  induction ds with
  | nil => simp [reported_mask, Nat.zero_testBit] at h
  | cons d rest ih =>
    rw [reported_mask, Nat.testBit_or] at h
    simp only [Bool.or_eq_true] at h
    rcases h with h1 | h1
    · unfold report_bit at h1
      by_cases hc : d.n ≠ 0 ∧ parentPos d = q
      · rw [if_pos hc, Nat.one_shiftLeft] at h1
        have hbe : 2 * (d.y % 2) + d.x % 2 = b := by
          by_contra hne
          rw [Nat.testBit_two_pow_of_ne hne] at h1
          exact absurd h1 (by simp)
        exact ⟨d, by simp, hc.1, hc.2, hbe⟩
      · rw [if_neg hc, Nat.zero_testBit] at h1
        exact absurd h1 (by simp)
    · obtain ⟨d', hmem, ha, hb', hc⟩ := ih h1
      exact ⟨d', by simp [hmem], ha, hb', hc⟩

/-- Helper: a full mask means all four children appear among the reports. -/
theorem mask15_children {q : Pos} {ds : List Pos}
    (h : reported_mask q ds = 15) : ∀ c ∈ pos_children q, c ∈ ds := by
  have hbit : ∀ b, b < 4 →
      ∃ d ∈ ds, d.n ≠ 0 ∧ parentPos d = q ∧ 2 * (d.y % 2) + d.x % 2 = b := by
    intro b hb
    apply reported_mask_testBit (b := b)
    rw [h]
    interval_cases b <;> rfl
  intro c hc
  simp only [pos_children, List.mem_cons, List.not_mem_nil, or_false] at hc
  rcases hc with hc | hc | hc | hc
  · obtain ⟨d, hd, h1, h2, h3⟩ := hbit 0 (by norm_num)
    obtain ⟨dn, dx, dy⟩ := d
    simp only at h1 h3
    subst h2
    have heq : c = (⟨dn, dx, dy⟩ : Pos) := by
      rw [hc]
      simp only [parentPos, Pos.mk.injEq]
      omega
    exact heq ▸ hd
  · obtain ⟨d, hd, h1, h2, h3⟩ := hbit 1 (by norm_num)
    obtain ⟨dn, dx, dy⟩ := d
    simp only at h1 h3
    subst h2
    have heq : c = (⟨dn, dx, dy⟩ : Pos) := by
      rw [hc]
      simp only [parentPos, Pos.mk.injEq]
      omega
    exact heq ▸ hd
  · obtain ⟨d, hd, h1, h2, h3⟩ := hbit 2 (by norm_num)
    obtain ⟨dn, dx, dy⟩ := d
    simp only at h1 h3
    subst h2
    have heq : c = (⟨dn, dx, dy⟩ : Pos) := by
      rw [hc]
      simp only [parentPos, Pos.mk.injEq]
      omega
    exact heq ▸ hd
  · obtain ⟨d, hd, h1, h2, h3⟩ := hbit 3 (by norm_num)
    obtain ⟨dn, dx, dy⟩ := d
    simp only at h1 h3
    subst h2
    have heq : c = (⟨dn, dx, dy⟩ : Pos) := by
      rw [hc]
      simp only [parentPos, Pos.mk.injEq]
      omega
    exact heq ▸ hd

/-- Helper: one dispatcher step, started from a tracker agreeing with
`mask_state`, updates the tracker to `mask_state` of the extended report list
and pushes exactly the parent whose mask becomes complete at this step. -/
theorem dispatch_step_spec {done : List Pos} {r : Readiness} {d : Pos}
    (hr : ∀ q, r q = mask_state q done) (hd : d.n ≠ 0) (hnew : d ∉ done) :
    (∀ q, (dispatch_step r d).1 q = mask_state q (done ++ [d])) ∧
    (∀ q, (dispatch_step r d).2 = some q ↔
      (reported_mask q (done ++ [d]) = 15 ∧ reported_mask q done ≠ 15)) := by
  have hblt : 2 * (d.y % 2) + d.x % 2 < 4 := by omega
  have hfresh : (reported_mask (parentPos d) done).testBit (2 * (d.y % 2) + d.x % 2)
      = false := by
    by_contra hb
    rw [Bool.not_eq_false] at hb
    obtain ⟨d', hd', h1, h2, h3⟩ := reported_mask_testBit hb
    have : d' = d := report_inj h1 hd h2 rfl h3
    exact hnew (this ▸ hd')
  have hm0lt := reported_mask_lt (parentPos d) done
  have hm0ne : reported_mask (parentPos d) done ≠ 15 :=
    (show ∀ m, m < 16 → ∀ e, e < 4 → m.testBit e = false → m ≠ 15 by decide)
      _ hm0lt _ hblt hfresh
  have hget : (r (parentPos d)).getD 0 = reported_mask (parentPos d) done := by
    rw [hr (parentPos d)]
    unfold mask_state
    by_cases h0 : reported_mask (parentPos d) done = 0
    · rw [if_pos (Or.inl h0), h0]; rfl
    · rw [if_neg (not_or.mpr ⟨h0, hm0ne⟩)]; rfl
  have happ : ∀ q, reported_mask q (done ++ [d]) =
      reported_mask q done ||| report_bit q d := by
    intro q
    rw [reported_mask_append]
    simp [reported_mask]
  have hbd : report_bit (parentPos d) d = 1 <<< (2 * (d.y % 2) + d.x % 2) := by
    unfold report_bit
    rw [if_pos ⟨hd, rfl⟩]
  have hbd0 : ∀ q, q ≠ parentPos d → report_bit q d = 0 := by
    intro q hq
    unfold report_bit
    rw [if_neg]
    rintro ⟨-, h⟩
    exact hq h.symm
  have hmain : reported_mask (parentPos d) (done ++ [d]) =
      ((r (parentPos d)).getD 0 ||| (1 <<< (2 * (d.y % 2) + d.x % 2))) := by
    rw [happ, hget, hbd]
  have hsame : ∀ q, q ≠ parentPos d →
      mask_state q (done ++ [d]) = mask_state q done := by
    intro q hq
    unfold mask_state
    rw [happ q, hbd0 q hq, Nat.or_zero]
  have hfbit : (((r (parentPos d)).getD 0 |||
      (1 <<< (2 * (d.y % 2) + d.x % 2)))).testBit (2 * (d.y % 2) + d.x % 2) = true := by
    rw [Nat.testBit_or, Nat.one_shiftLeft, Nat.testBit_two_pow_self]
    simp
  have hflag0 : ((r (parentPos d)).getD 0 ||| (1 <<< (2 * (d.y % 2) + d.x % 2))) ≠ 0 := by
    intro hz
    rw [hz, Nat.zero_testBit] at hfbit
    exact absurd hfbit (by simp)
  by_cases hflag : ((r (parentPos d)).getD 0 ||| (1 <<< (2 * (d.y % 2) + d.x % 2))) = 15
  · have hstep : dispatch_step r d =
        (fun q => if q = parentPos d then none else r q, some (parentPos d)) := by
      unfold dispatch_step
      rw [if_pos hflag]
    rw [hstep]
    constructor
    · intro q
      by_cases hq : q = parentPos d
      · subst hq
        simp only [if_pos rfl]
        unfold mask_state
        rw [hmain, hflag]
        simp
      · simp only [if_neg hq]
        rw [hr q, hsame q hq]
    · intro q
      simp only
      constructor
      · intro hsome
        have hqp : q = parentPos d := by
          injection hsome with h'
          exact h'.symm
        subst hqp
        exact ⟨by rw [hmain, hflag], hm0ne⟩
      · rintro ⟨h15, hne⟩
        by_cases hq : q = parentPos d
        · rw [hq]
        · rw [happ q, hbd0 q hq, Nat.or_zero] at h15
          exact absurd h15 hne
  · have hstep : dispatch_step r d =
        (fun q => if q = parentPos d then
            some ((r (parentPos d)).getD 0 ||| (1 <<< (2 * (d.y % 2) + d.x % 2)))
          else r q, none) := by
      unfold dispatch_step
      rw [if_neg hflag]
    rw [hstep]
    constructor
    · intro q
      by_cases hq : q = parentPos d
      · subst hq
        simp only [if_pos rfl]
        unfold mask_state
        rw [hmain]
        rw [if_neg (not_or.mpr ⟨hflag0, hflag⟩)]
        simp
      · simp only [if_neg hq]
        rw [hr q, hsame q hq]
    · intro q
      simp only
      constructor
      · intro hsome
        exact absurd hsome (by simp)
      · rintro ⟨h15, hne⟩
        by_cases hq : q = parentPos d
        · subst hq
          rw [hmain] at h15
          exact absurd h15 hflag
        · rw [happ q, hbd0 q hq, Nat.or_zero] at h15
          exact absurd h15 hne

/-- Helper: the dispatcher run over a root-free, duplicate-free report list
maintains `mask_state` and pushes exactly the parents whose masks become
complete during the run. -/
theorem dispatch_run_spec : ∀ (ds done : List Pos) (r : Readiness),
    (∀ d ∈ ds, d.n ≠ 0) → (∀ d ∈ ds, d ∉ done) → ds.Nodup →
    (∀ q, r q = mask_state q done) →
    (∀ q, (dispatch_run r ds).1 q = mask_state q (done ++ ds)) ∧
    (∀ q, q ∈ (dispatch_run r ds).2.1 ↔
      (reported_mask q (done ++ ds) = 15 ∧ reported_mask q done ≠ 15)) ∧
    (dispatch_run r ds).2.2 = false := by
  intro ds
  induction ds with
  | nil =>
    intro done r _ _ _ hr
    refine ⟨by simpa using hr, ?_, rfl⟩
    intro q
    simp only [dispatch_run, List.not_mem_nil, false_iff, List.append_nil]
    tauto
  | cons d rest ih =>
    intro done r hroot hnew hnd hr
    have hd : d.n ≠ 0 := hroot d (by simp)
    have hdnew : d ∉ done := hnew d (by simp)
    obtain ⟨hstep1, hstep2⟩ := dispatch_step_spec hr hd hdnew
    have hdrest : d ∉ rest := (List.nodup_cons.mp hnd).1
    obtain ⟨ih1, ih2, ih3⟩ := ih (done ++ [d]) (dispatch_step r d).1
      (fun x hx => hroot x (by simp [hx]))
      (by
        intro x hx
        simp only [List.mem_append, List.mem_singleton]
        rintro (hx' | hx')
        · exact hnew x (by simp [hx]) hx'
        · exact hdrest (hx' ▸ hx))
      (List.nodup_cons.mp hnd).2 hstep1
    have hassoc : done ++ d :: rest = (done ++ [d]) ++ rest := by simp
    refine ⟨?_, ?_, ?_⟩
    · intro q
      simp only [dispatch_run, if_neg hd]
      rw [ih1 q, hassoc]
    · intro q
      simp only [dispatch_run, if_neg hd, List.mem_append]
      have e1 : q ∈ (dispatch_step r d).2.toList ↔ (dispatch_step r d).2 = some q := by
        cases h : (dispatch_step r d).2 <;> simp [h, eq_comm]
      rw [e1, hstep2 q, ih2 q, hassoc]
      have hmono1 : reported_mask q (done ++ [d]) = 15 →
          reported_mask q ((done ++ [d]) ++ rest) = 15 := by
        intro h15
        rw [reported_mask_append, h15]
        exact (show ∀ b, b < 16 → 15 ||| b = 15 by decide) _ (reported_mask_lt _ _)
      have hmono0 : reported_mask q done = 15 → reported_mask q (done ++ [d]) = 15 := by
        intro h15
        rw [reported_mask_append, h15]
        exact (show ∀ b, b < 16 → 15 ||| b = 15 by decide) _ (reported_mask_lt _ _)
      tauto
    · simp only [dispatch_run, if_neg hd]
      exact ih3

/-- Helper: a root report terminates the dispatcher loop on the spot,
discarding the remaining reports. -/
theorem dispatch_run_root_stops : ∀ (l : List Pos) (r : Readiness) (t : List Pos)
    (p : Pos), (∀ x ∈ l, x.n ≠ 0) → p.n = 0 →
    dispatch_run r (l ++ p :: t) =
      ((dispatch_run r l).1, (dispatch_run r l).2.1, true) := by
  intro l
  induction l with
  | nil =>
    intro r t p _ hp
    simp [dispatch_run, hp]
  | cons a l ih =>
    intro r t p hroot hp
    have ha : a.n ≠ 0 := hroot a (by simp)
    simp only [List.cons_append, dispatch_run, if_neg ha, List.append_eq]
    rw [ih _ t p (fun x hx => hroot x (by simp [hx])) hp]

/-- Claim C3: over any root-free, duplicate-free sequence of done reports from
empty readiness state, a parent is pushed onto the ready queue if and only if
all of its readiness bits were reported; a pushed parent has all four children
among the reports and its tracker entry removed; at each step, the processed
report pushes a parent exactly when it completes that parent's mask
(`0b1111`), and at that same step the entry is removed; a root report
terminates the dispatch loop immediately. -/
theorem dispatcher_ready_protocol (ds : List Pos)
    (hroot : ∀ d ∈ ds, d.n ≠ 0) (hnd : ds.Nodup) :
    (∀ q, q ∈ (dispatch_run empty_readiness ds).2.1 ↔ reported_mask q ds = 15) ∧
    (∀ q, q ∈ (dispatch_run empty_readiness ds).2.1 →
      (∀ c ∈ pos_children q, c ∈ ds) ∧ (dispatch_run empty_readiness ds).1 q = none) ∧
    (∀ l d t, ds = l ++ d :: t →
      ∀ q, ((dispatch_step (dispatch_run empty_readiness l).1 d).2 = some q ↔
        (reported_mask q (l ++ [d]) = 15 ∧ reported_mask q l ≠ 15)) ∧
        ((dispatch_step (dispatch_run empty_readiness l).1 d).2 = some q →
          (dispatch_step (dispatch_run empty_readiness l).1 d).1 q = none)) ∧
    (∀ (l : List Pos) (r : Readiness) (t : List Pos) (p : Pos),
      (∀ x ∈ l, x.n ≠ 0) → p.n = 0 →
      dispatch_run r (l ++ p :: t) =
        ((dispatch_run r l).1, (dispatch_run r l).2.1, true)) := by
  have hempty : ∀ q, empty_readiness q = mask_state q ([] : List Pos) := by
    intro q
    simp [empty_readiness, mask_state, reported_mask]
  obtain ⟨hrun1, hrun2, -⟩ :=
    dispatch_run_spec ds [] empty_readiness hroot (by simp) hnd hempty
  simp only [List.nil_append] at hrun1 hrun2
  have hpush : ∀ q, q ∈ (dispatch_run empty_readiness ds).2.1 ↔
      reported_mask q ds = 15 := by
    intro q
    rw [hrun2 q]
    simp [reported_mask]
  refine ⟨hpush, ?_, ?_, dispatch_run_root_stops⟩
  · intro q hq
    have h15 := (hpush q).mp hq
    refine ⟨mask15_children h15, ?_⟩
    rw [hrun1 q]
    unfold mask_state
    rw [h15]
    simp
  · intro l d t hds q
    have hlsub : ∀ x ∈ l, x ∈ ds := by
      intro x hx
      rw [hds]
      simp [hx]
    have hlroot : ∀ x ∈ l, x.n ≠ 0 := fun x hx => hroot x (hlsub x hx)
    have hnd' : (l ++ d :: t).Nodup := hds ▸ hnd
    obtain ⟨hlnd, hdtnd, hdisj⟩ := List.nodup_append.mp hnd'
    have hdl : d ∉ l := fun hdl => hdisj hdl (by simp)
    have hdn : d.n ≠ 0 := hroot d (by rw [hds]; simp)
    obtain ⟨hst1, -, -⟩ :=
      dispatch_run_spec l [] empty_readiness hlroot (by simp) hlnd hempty
    simp only [List.nil_append] at hst1
    obtain ⟨hsp1, hsp2⟩ := dispatch_step_spec hst1 hdn hdl
    refine ⟨hsp2 q, ?_⟩
    intro hsome
    rw [hsp1 q]
    have h15 := ((hsp2 q).mp hsome).1
    unfold mask_state
    rw [h15]
    simp

/-- Witness for `dispatcher_ready_protocol`: after the four children of the
root report done, the root is pushed onto the ready queue. -/
theorem dispatcher_ready_protocol_witness :
    rootPos ∈ (dispatch_run empty_readiness
      [⟨1, 0, 0⟩, ⟨1, 1, 0⟩, ⟨1, 0, 1⟩, ⟨1, 1, 1⟩]).2.1 :=
  ((dispatcher_ready_protocol [⟨1, 0, 0⟩, ⟨1, 1, 0⟩, ⟨1, 0, 1⟩, ⟨1, 1, 1⟩]
      (by decide) (by decide)).1 rootPos).mpr (by decide)

/-- Helper: every tracker entry the dispatcher ever stores is below `2^4`. -/
theorem dispatch_run_bound : ∀ (ds : List Pos) (r : Readiness),
    (∀ q m, r q = some m → m < 16) →
    ∀ q m, (dispatch_run r ds).1 q = some m → m < 16 := by
  intro ds
  induction ds with
  | nil => exact fun r hinv q m h => hinv q m h
  | cons d rest ih =>
    intro r hinv q m
    by_cases hd : d.n = 0
    · simp only [dispatch_run, if_pos hd]
      exact hinv q m
    · simp only [dispatch_run, if_neg hd]
      apply ih
      intro q' m' h'
      unfold dispatch_step at h'
      by_cases hf : ((r (parentPos d)).getD 0 |||
          (1 <<< (2 * (d.y % 2) + d.x % 2))) = 15
      · rw [if_pos hf] at h'
        simp only at h'
        by_cases hq : q' = parentPos d
        · rw [if_pos hq] at h'
          exact absurd h' (by simp)
        · rw [if_neg hq] at h'
          exact hinv q' m' h'
      · rw [if_neg hf] at h'
        simp only at h'
        by_cases hq : q' = parentPos d
        · rw [if_pos hq] at h'
          injection h' with h''
          have hg : (r (parentPos d)).getD 0 < 16 := by
            cases hrp : r (parentPos d) with
            | none => simp
            | some k => simpa using hinv _ k hrp
          have hb : (1 <<< (2 * (d.y % 2) + d.x % 2)) < 16 := by
            rw [Nat.one_shiftLeft]
            calc (2 : Nat) ^ (2 * (d.y % 2) + d.x % 2) < 2 ^ 4 :=
                  Nat.pow_lt_pow_right (by norm_num) (by omega)
              _ = 16 := by norm_num
          have := Nat.or_lt_two_pow (n := 4) (by simpa using hg) (by simpa using hb)
          omega
        · rw [if_neg hq] at h'
          exact hinv q' m' h'

/-- Claim C5 as amended, first half: in every dispatcher execution from empty
readiness state, a stored readiness mask never exceeds `0b1111`. (The second
half of the amendment — silent absorption of a duplicate report — is the
content of `duplicate_report_absorbed`.) -/
theorem readiness_mask_never_exceeds (ds : List Pos) (q : Pos) (m : Nat)
    (h : (dispatch_run empty_readiness ds).1 q = some m) : m ≤ 15 := by
  have := dispatch_run_bound ds empty_readiness
    (by intro q' m' h'; simp [empty_readiness] at h') q m h
  omega

/-- Witness for `readiness_mask_never_exceeds`: one done report stores mask 1
at the root entry. -/
theorem readiness_mask_never_exceeds_witness :
    (dispatch_run empty_readiness [⟨1, 0, 0⟩]).1 rootPos = some 1 ∧ (1 : Nat) ≤ 15 :=
  ⟨by decide, readiness_mask_never_exceeds [⟨1, 0, 0⟩] rootPos 1 (by decide)⟩

/-- Claim C5 fails on the dispatcher as coded for duplicate reports: after the
four children of the root report done (the root is pushed and its entry
removed), a fifth, duplicate report of the first child is processed without
any error: it silently re-creates a tracker entry `some 1` for the
already-dispatched root, the push list stays `[root]`, and the loop keeps
running — no duplicate-report detection exists in `merge.py` lines 315-326. -/
theorem duplicate_report_absorbed :
    (dispatch_run empty_readiness duplicate_report_run).1 rootPos = some 1 ∧
    (dispatch_run empty_readiness duplicate_report_run).2.1 = [rootPos] ∧
    (dispatch_run empty_readiness duplicate_report_run).2.2 = false := by
  decide

/-- Helper: the parent of a valid non-root position is valid. -/
theorem parentPos_valid {p : Pos} (h1 : validPos p) (h2 : 1 ≤ p.n) :
    validPos (parentPos p) := by
  obtain ⟨n, x, y⟩ := p
  simp only [validPos, parentPos] at h1 ⊢
  simp only at h2
  have hp : (2 : Nat) ^ n = 2 ^ (n - 1) * 2 := by
    conv_lhs => rw [show n = (n - 1) + 1 by omega]
    rw [pow_succ]
  constructor
  · rw [Nat.div_lt_iff_lt_mul (by norm_num)]
    omega
  · rw [Nat.div_lt_iff_lt_mul (by norm_num)]
    omega

/-- Helper: generations of the parent set are shifted generations of the
original set. -/
theorem gen_shift (S : Finset Pos) : ∀ j, gen (get_parents S) j = gen S (j + 1) := by
  intro j
  induction j with
  | zero => rfl
  | succ k ih =>
    show get_parents (gen (get_parents S) k) = get_parents (gen S (k + 1))
    rw [ih]

/-- Helper: over a uniform-depth-`d` valid set, generation `j ≤ d` consists of
valid positions of depth `d - j`. -/
theorem gen_members {S : Finset Pos} {d : Nat}
    (hS : ∀ p ∈ S, p.n = d ∧ validPos p) :
    ∀ j, j ≤ d → ∀ p ∈ gen S j, p.n = d - j ∧ validPos p := by
  intro j
  induction j with
  | zero =>
    intro _ p hp
    simpa using hS p hp
  | succ k ih =>
    intro hk p hp
    simp only [gen, get_parents] at hp
    obtain ⟨q, hq, rfl⟩ := Finset.mem_image.mp hp
    obtain ⟨hqd, hqv⟩ := ih (by omega) q hq
    refine ⟨?_, parentPos_valid hqv (by omega)⟩
    simp only [parentPos]
    omega

/-- Helper: the parents of a non-empty valid depth-1 set form exactly the
root singleton. -/
theorem gen1_root {S : Finset Pos} (hS : ∀ p ∈ S, p.n = 1 ∧ validPos p)
    (hne : S.Nonempty) : get_parents S = {rootPos} := by
  have hpar : ∀ p ∈ S, parentPos p = rootPos := by
    intro p hp
    obtain ⟨hp1, hpv⟩ := hS p hp
    obtain ⟨n, x, y⟩ := p
    simp only at hp1
    subst hp1
    simp only [validPos, pow_one] at hpv
    simp only [parentPos, rootPos, Pos.mk.injEq]
    exact ⟨trivial, by omega, by omega⟩
  ext q
  simp only [get_parents, Finset.mem_image, Finset.mem_singleton]
  constructor
  · rintro ⟨p, hp, rfl⟩
    exact hpar p hp
  · rintro rfl
    obtain ⟨p, hp⟩ := hne
    exact ⟨p, hp, hpar p hp⟩

/-- Helper: one seeding pass followed by the seeded state of the parent
generation equals the seeded state of the original generation. -/
theorem seeded_from_step {S : Finset Pos} {k : Nat} (r : Readiness)
    (hS : ∀ p ∈ S, p.n = k + 1 ∧ validPos p) :
    seeded_from (get_parents S) k (seed_pass S (get_parents S) r) =
      seeded_from S (k + 1) r := by
  have hdepth1 : ∀ p ∈ get_parents S, p.n = k := by
    intro p hp
    simp only [get_parents] at hp
    obtain ⟨q, hq, rfl⟩ := Finset.mem_image.mp hp
    have := (hS q hq).1
    simp only [parentPos]
    omega
  funext a
  unfold seeded_from
  by_cases h1 : a.n < k
  · have hnotg : a ∉ get_parents S := fun hmem => by
      have := hdepth1 a hmem
      omega
    have hsp : seed_pass S (get_parents S) r a = r a := by
      unfold seed_pass
      rw [if_neg]
      rintro ⟨hmem, -⟩
      exact hnotg hmem
    have e1 : gen (get_parents S) (k - a.n) = gen S (k + 1 - a.n) := by
      rw [gen_shift]
      congr 1
      omega
    have e2 : gen (get_parents S) (k - a.n - 1) = gen S (k + 1 - a.n - 1) := by
      rw [gen_shift]
      congr 1
      omega
    rw [e1, e2, hsp]
    by_cases hc : a ∈ gen S (k + 1 - a.n) ∧ missing_mask a (gen S (k + 1 - a.n - 1)) ≠ 0
    · rw [if_pos ⟨h1, hc.1, hc.2⟩, if_pos ⟨by omega, hc.1, hc.2⟩]
    · rw [if_neg (by tauto), if_neg (by tauto)]
  · by_cases h2 : a.n = k
    · rw [if_neg (by tauto)]
      have e4 : k + 1 - a.n = 1 := by omega
      rw [e4]
      have e5 : gen S (1 - 1) = S := rfl
      have e6 : gen S 1 = get_parents S := rfl
      rw [e5, e6]
      unfold seed_pass
      by_cases hc : a ∈ get_parents S ∧ missing_mask a S ≠ 0
      · rw [if_pos hc, if_pos ⟨by omega, hc.1, hc.2⟩]
      · rw [if_neg hc, if_neg (by tauto)]
    · have hg : a ∉ get_parents S := fun hmem => by
        have := hdepth1 a hmem
        omega
      rw [if_neg (by tauto), if_neg (by rintro ⟨hlt, -, -⟩; omega)]
      unfold seed_pass
      rw [if_neg (by rintro ⟨hmem, -⟩; exact hg hmem)]

/-- Helper: over a non-empty uniform-depth valid set, the seeding routine
returns exactly the `seeded_from` tracker. -/
theorem initiate_readiness_spec : ∀ (d : Nat) (S : Finset Pos) (r : Readiness),
    1 ≤ d → S.Nonempty → (∀ p ∈ S, p.n = d ∧ validPos p) →
    _initiate_readiness_state S r = Except.ok (seeded_from S d r) := by
  intro d
  induction d with
  | zero => intro S r h; omega
  | succ k ih =>
    intro S r _ hne hS
    have hroot : rootPos ∉ S := by
      intro hr
      have := (hS _ hr).1
      simp [rootPos] at this
    have hz : ¬∃ p ∈ S, p.n = 0 := by
      rintro ⟨p, hp, hp0⟩
      have := (hS p hp).1
      omega
    rw [_initiate_readiness_state,
      dif_neg (by push_neg; exact ⟨Finset.nonempty_iff_ne_empty.mp hne, hroot⟩),
      dif_neg hz]
    by_cases hk : k = 0
    · subst hk
      have hg1 : get_parents S = {rootPos} := gen1_root hS hne
      rw [_initiate_readiness_state]
      rw [dif_pos (Or.inr (by rw [hg1]; exact Finset.mem_singleton_self _))]
      rw [← seeded_from_step r hS]
      congr 1
    · have hk1 : 1 ≤ k := by omega
      have hgS : ∀ p ∈ get_parents S, p.n = k ∧ validPos p := by
        intro p hp
        simp only [get_parents] at hp
        obtain ⟨q, hq, rfl⟩ := Finset.mem_image.mp hp
        obtain ⟨hqd, hqv⟩ := hS q hq
        refine ⟨by simp only [parentPos]; omega, parentPos_valid hqv (by omega)⟩
      rw [ih (get_parents S) (seed_pass S (get_parents S) r) hk1
        (hne.image _) hgS]
      rw [seeded_from_step r hS]

/-- Claim C4: for every non-empty, uniform-depth, in-range filtered tile set
(which therefore excludes the root), the readiness-seeding routine returns
successfully and the resulting tracker holds, for each ancestor in each
generation up to the root, exactly the bits (index `2*(y mod 2) + (x mod 2)`)
of those of its four children that lie outside the previous generation (and
no entry at all when no child is missing, or for positions outside the
ancestor generations). -/
theorem initiate_readiness_seeds_exactly (d : Nat) (S : Finset Pos)
    (hd : 1 ≤ d) (hne : S.Nonempty) (hS : ∀ p ∈ S, p.n = d ∧ validPos p) :
    ∃ r', _initiate_readiness_state S empty_readiness = Except.ok r' ∧
      (∀ k, 1 ≤ k → k ≤ d → ∀ a ∈ gen S k,
        r' a = if missing_mask a (gen S (k - 1)) = 0 then none
               else some (missing_mask a (gen S (k - 1)))) ∧
      (∀ a, (∀ k, 1 ≤ k → k ≤ d → a ∉ gen S k) → r' a = none) := by
  refine ⟨seeded_from S d empty_readiness,
    initiate_readiness_spec d S empty_readiness hd hne hS, ?_, ?_⟩
  · intro k hk1 hkd a ha
    have hdepth := (gen_members hS k hkd a ha).1
    have hk : d - a.n = k := by omega
    unfold seeded_from
    rw [hk]
    by_cases hm : missing_mask a (gen S (k - 1)) = 0
    · rw [if_neg (by tauto), if_pos hm]
      rfl
    · rw [if_pos ⟨by omega, ha, hm⟩, if_neg hm]
      simp [empty_readiness]
  · intro a hnot
    unfold seeded_from
    rw [if_neg]
    · rfl
    · rintro ⟨h1, h2, -⟩
      exact hnot (d - a.n) (by omega) (by omega) h2

/-- Witness for `initiate_readiness_seeds_exactly`, at the filtered set
`{(1,0,0), (1,1,0)}` of `test_initiate_readiness_state` (whose expected root
mask is `0b1100`). -/
theorem initiate_readiness_seeds_exactly_witness :
    ∃ r', _initiate_readiness_state {⟨1, 0, 0⟩, ⟨1, 1, 0⟩} empty_readiness =
        Except.ok r' ∧
      (∀ k, 1 ≤ k → k ≤ 1 → ∀ a ∈ gen {⟨1, 0, 0⟩, ⟨1, 1, 0⟩} k,
        r' a = if missing_mask a (gen {⟨1, 0, 0⟩, ⟨1, 1, 0⟩} (k - 1)) = 0 then none
               else some (missing_mask a (gen {⟨1, 0, 0⟩, ⟨1, 1, 0⟩} (k - 1)))) ∧
      (∀ a, (∀ k, 1 ≤ k → k ≤ 1 → a ∉ gen {⟨1, 0, 0⟩, ⟨1, 1, 0⟩} k) → r' a = none) :=
  initiate_readiness_seeds_exactly 1 {⟨1, 0, 0⟩, ⟨1, 1, 0⟩} (by norm_num)
    ⟨⟨1, 0, 0⟩, by decide⟩ (by decide)

/-- Claim C10: for every finite set of valid tile positions — arbitrarily
deep, arbitrarily sparse, mixed depths allowed — the one-generation-at-a-time
recursion of `_initiate_readiness_state` terminates successfully, bottoming
out on an empty generation or one containing the pyramid root. -/
theorem initiate_readiness_terminates : ∀ (S : Finset Pos) (r : Readiness),
    (∀ p ∈ S, validPos p) →
    ∃ r', _initiate_readiness_state S r = Except.ok r' := by
  have main : ∀ (m : Nat) (S : Finset Pos) (r : Readiness),
      S.sup (fun p => p.n) = m → (∀ p ∈ S, validPos p) →
      ∃ r', _initiate_readiness_state S r = Except.ok r' := by
    intro m
    induction m using Nat.strong_induction_on with
    | _ m ih =>
      intro S r hm hvalid
      by_cases hbase : S = ∅ ∨ rootPos ∈ S
      · exact ⟨r, by rw [_initiate_readiness_state, dif_pos hbase]⟩
      · push_neg at hbase
        have hz : ¬∃ p ∈ S, p.n = 0 := by
          rintro ⟨p, hp, hp0⟩
          have hv := hvalid p hp
          have hpr : p = rootPos := by
            obtain ⟨n, x, y⟩ := p
            simp only at hp0
            subst hp0
            simp only [validPos, pow_zero] at hv
            have hx : x = 0 := by omega
            have hy : y = 0 := by omega
            simp [rootPos, hx, hy]
          exact hbase.2 (hpr ▸ hp)
        have hvalid' : ∀ p ∈ get_parents S, validPos p := by
          intro p hp
          simp only [get_parents] at hp
          obtain ⟨q, hq, rfl⟩ := Finset.mem_image.mp hp
          have hq0 : q.n ≠ 0 := by
            intro h0
            exact hz ⟨q, hq, h0⟩
          exact parentPos_valid (hvalid q hq) (by omega)
        have hlt : (get_parents S).sup (fun p => p.n) < m := by
          obtain ⟨p₀, hp₀⟩ := Finset.nonempty_iff_ne_empty.mpr hbase.1
          have h1 : 1 ≤ S.sup (fun p => p.n) := by
            have hz0 : p₀.n ≠ 0 := fun h0 => hz ⟨p₀, hp₀, h0⟩
            exact le_trans (Nat.one_le_iff_ne_zero.mpr hz0)
              (Finset.le_sup (f := fun p : Pos => p.n) hp₀)
          have h2 : (get_parents S).sup (fun p => p.n) ≤ S.sup (fun p => p.n) - 1 := by
            apply Finset.sup_le
            intro q hq
            simp only [get_parents] at hq
            obtain ⟨p, hp, hpq⟩ := Finset.mem_image.mp hq
            rw [← hpq]
            simp only [parentPos]
            exact Nat.sub_le_sub_right (Finset.le_sup (f := fun p : Pos => p.n) hp) 1
          omega
        obtain ⟨r', hr'⟩ := ih ((get_parents S).sup fun p => p.n) hlt (get_parents S)
          (seed_pass S (get_parents S) r) rfl hvalid'
        refine ⟨r', ?_⟩
        rw [_initiate_readiness_state, dif_neg (by push_neg; exact hbase), dif_neg hz]
        exact hr'
  exact fun S r h => main (S.sup fun p => p.n) S r rfl h

/-- Witness for `initiate_readiness_terminates`, at the two-tile depth-3 set
of `test_initiate_readiness_state`. -/
theorem initiate_readiness_terminates_witness :
    ∃ r', _initiate_readiness_state {⟨3, 7, 7⟩, ⟨3, 3, 1⟩} empty_readiness =
      Except.ok r' :=
  initiate_readiness_terminates {⟨3, 7, 7⟩, ⟨3, 3, 1⟩} empty_readiness (by decide)

/-- Helper: membership in one pyramid level. -/
theorem level_positions_mem {d : Nat} {p : Pos} :
    p ∈ level_positions d ↔ p.n = d ∧ p.x < 2 ^ d ∧ p.y < 2 ^ d := by
  unfold level_positions
  simp only [List.mem_flatMap, List.mem_map, List.mem_range]
  constructor
  · rintro ⟨y, hy, x, hx, rfl⟩
    exact ⟨rfl, hx, hy⟩
  · rintro ⟨hn, hx, hy⟩
    obtain ⟨n, px, py⟩ := p
    simp only at hn hx hy
    subst hn
    exact ⟨py, hy, px, hx, rfl⟩

/-- Helper: one pyramid level lists no position twice. -/
theorem level_positions_nodup (d : Nat) : (level_positions d).Nodup := by
  unfold level_positions
  rw [List.nodup_flatMap]
  constructor
  · intro y _
    refine List.Nodup.map ?_ (List.nodup_range _)
    intro a b hab
    simpa using hab
  · refine List.Pairwise.imp ?_ (List.pairwise_lt_range _)
    intro a b hab z hz1 hz2
    simp only [List.mem_map, List.mem_range] at hz1 hz2
    obtain ⟨x1, -, rfl⟩ := hz1
    obtain ⟨x2, -, hz⟩ := hz2
    simp only [Pos.mk.injEq] at hz
    omega

/-- Helper: a ready order only looks at the membership of the accumulated
done list, not at its order or multiplicity. -/
theorem ready_order_congr (start : Nat) : ∀ (L done1 done2 : List Pos),
    (∀ q, q ∈ done1 ↔ q ∈ done2) →
    ready_order start done1 L = ready_order start done2 L := by
  intro L
  induction L with
  | nil => intro done1 done2 _; rfl
  | cons p rest ih =>
    intro done1 done2 h
    simp only [ready_order]
    have e1 : decide (p ∉ done1) = decide (p ∉ done2) :=
      decide_eq_decide.mpr (not_congr (h p))
    have e2 : ((pos_children p).all fun c => decide (c.n < start → c ∈ done1)) =
        ((pos_children p).all fun c => decide (c.n < start → c ∈ done2)) := by
      apply congrArg
      funext c
      exact decide_eq_decide.mpr (imp_congr Iff.rfl (h c))
    rw [e1, e2, ih (p :: done1) (p :: done2) (by intro q; simp [h q])]

/-- Helper: splitting a ready order across an append. -/
theorem ready_order_append (start : Nat) : ∀ (L1 L2 done : List Pos),
    ready_order start done (L1 ++ L2) = true ↔
      (ready_order start done L1 = true ∧
        ready_order start (L1 ++ done) L2 = true) := by
  intro L1
  induction L1 with
  | nil =>
    intro L2 done
    simp [ready_order]
  | cons p rest ih =>
    intro L2 done
    simp only [List.cons_append, ready_order, Bool.and_eq_true, List.append_eq]
    rw [ih L2 (p :: done)]
    have hcg : ready_order start (rest ++ p :: done) L2 =
        ready_order start ((p :: rest) ++ done) L2 :=
      ready_order_congr start L2 _ _
        (by intro q; simp only [List.mem_append, List.mem_cons]; tauto)
    rw [hcg]
    tauto

/-- Helper: a duplicate-free block whose members all have their processed
children already done is a ready order. -/
theorem ready_order_of_forall (start : Nat) : ∀ (L done : List Pos), L.Nodup →
    (∀ p ∈ L, p.n < start ∧ p ∉ done ∧
      ∀ c ∈ pos_children p, c.n < start → c ∈ done) →
    ready_order start done L = true := by
  intro L
  induction L with
  | nil => intro done _ _; rfl
  | cons p rest ih =>
    intro done hnd h
    obtain ⟨h1, h2, h3⟩ := h p (List.mem_cons_self p rest)
    simp only [ready_order, Bool.and_eq_true, decide_eq_true_eq, List.all_eq_true]
    refine ⟨⟨⟨h1, h2⟩, fun c hc => by simpa using h3 c hc⟩, ?_⟩
    apply ih (p :: done) (List.nodup_cons.mp hnd).2
    intro q hq
    obtain ⟨g1, g2, g3⟩ := h q (List.mem_cons_of_mem p hq)
    refine ⟨g1, ?_, fun c hc hcn => List.mem_cons_of_mem p (g3 c hc hcn)⟩
    intro hmem
    rcases List.mem_cons.mp hmem with rfl | hmem
    · exact (List.nodup_cons.mp hnd).1 hq
    · exact g2 hmem

/-- Helper: the level-by-level deepest-first serial order is a valid ready
order, given that the level just above the remaining levels is already done. -/
theorem serial_order_ready (S : Nat) : ∀ (s : Nat), s ≤ S → ∀ done : List Pos,
    (∀ q ∈ done, s ≤ q.n) →
    (s < S → ∀ c : Pos, c.n = s → c.x < 2 ^ s → c.y < 2 ^ s → c ∈ done) →
    ready_order S done (serial_order s) = true := by
  intro s
  induction s with
  | zero => intro _ done _ _; rfl
  | succ k ih =>
    intro hS done hdge hlev
    show ready_order S done (level_positions k ++ serial_order k) = true
    rw [ready_order_append]
    constructor
    · apply ready_order_of_forall S _ _ (level_positions_nodup k)
      intro p hp
      obtain ⟨hpn, hpx, hpy⟩ := level_positions_mem.mp hp
      refine ⟨by omega, ?_, ?_⟩
      · intro hmem
        have := hdge p hmem
        omega
      · intro c hc hcn
        have hpow : (2 : Nat) ^ (k + 1) = 2 ^ k * 2 := pow_succ 2 k
        have hck : c.n = k + 1 ∧ c.x < 2 ^ (k + 1) ∧ c.y < 2 ^ (k + 1) := by
          simp only [pos_children, List.mem_cons, List.not_mem_nil, or_false] at hc
          rcases hc with rfl | rfl | rfl | rfl <;>
            exact ⟨by simp only; omega, by simp only; omega, by simp only; omega⟩
        exact hlev (by omega) c hck.1 hck.2.1 hck.2.2
    · apply ih (by omega) (level_positions k ++ done)
      · intro q hq
        rcases List.mem_append.mp hq with hq | hq
        · have := (level_positions_mem.mp hq).1
          omega
        · have := hdge q hq
          omega
      · intro _ c hc1 hc2 hc3
        exact List.mem_append.mpr (Or.inl (level_positions_mem.mpr ⟨hc1, hc2, hc3⟩))

/-- Helper: the serial order visits every in-range position shallower than
the start depth. -/
theorem serial_order_complete : ∀ (S : Nat) (p : Pos), p.n < S →
    p.x < 2 ^ p.n → p.y < 2 ^ p.n → p ∈ serial_order S := by
  intro S
  induction S with
  | zero => intro p h _ _; omega
  | succ k ih =>
    intro p h hx hy
    show p ∈ level_positions k ++ serial_order k
    rw [List.mem_append]
    by_cases hpk : p.n = k
    · refine Or.inl (level_positions_mem.mpr ⟨hpk, ?_, ?_⟩) <;> rw [← hpk] <;>
        assumption
    · exact Or.inr (ih p (by omega) hx hy)

/-- Helper, the heart of claim C1: running any valid ready order turns every
processed position into its order-independent `cascade_expected` value and
leaves every other position at its input value. -/
theorem run_schedule_correct {α : Type}
    (f : Option α → Option α → Option α → Option α → α) (s : Store α)
    (start : Nat) :
    ∀ (todo done : List Pos) (cur : Store α),
    ready_order start done todo = true →
    (∀ q ∈ done, q.n < start) →
    (∀ q ∈ done, cur q = cascade_expected f s start q) →
    (∀ q, q ∉ done → cur q = s q) →
    (∀ q, q ∈ done ∨ q ∈ todo →
      run_schedule f cur todo q = cascade_expected f s start q) ∧
    (∀ q, q ∉ done → q ∉ todo → run_schedule f cur todo q = s q) := by
  intro todo
  induction todo with
  | nil =>
    intro done cur _ _ hdone hout
    refine ⟨?_, fun q hq _ => hout q hq⟩
    intro q hq
    rcases hq with hq | hq
    · exact hdone q hq
    · exact absurd hq (List.not_mem_nil q)
  | cons p rest ih =>
    intro done cur hro hdlt hdone hout
    simp only [ready_order, Bool.and_eq_true, decide_eq_true_eq,
      List.all_eq_true] at hro
    obtain ⟨⟨⟨hplt, hpnew⟩, hchild⟩, hrest⟩ := hro
    have hcc : ∀ c ∈ pos_children p, cur c = cascade_expected f s start c := by
      intro c hcmem
      by_cases hcn : c.n < start
      · exact hdone c (by simpa using hchild c hcmem hcn)
      · have hcd : c ∉ done := fun hmem => hcn (hdlt c hmem)
        rw [hout c hcd, cascade_expected, dif_pos (by omega)]
    have hx0 := hcc ⟨p.n + 1, 2 * p.x, 2 * p.y⟩ (by simp [pos_children])
    have hx1 := hcc ⟨p.n + 1, 2 * p.x + 1, 2 * p.y⟩ (by simp [pos_children])
    have hx2 := hcc ⟨p.n + 1, 2 * p.x, 2 * p.y + 1⟩ (by simp [pos_children])
    have hx3 := hcc ⟨p.n + 1, 2 * p.x + 1, 2 * p.y + 1⟩ (by simp [pos_children])
    have hEp : cascade_expected f s start p =
        if (cascade_expected f s start ⟨p.n + 1, 2 * p.x, 2 * p.y⟩).isNone &&
            (cascade_expected f s start ⟨p.n + 1, 2 * p.x + 1, 2 * p.y⟩).isNone &&
            (cascade_expected f s start ⟨p.n + 1, 2 * p.x, 2 * p.y + 1⟩).isNone &&
            (cascade_expected f s start ⟨p.n + 1, 2 * p.x + 1, 2 * p.y + 1⟩).isNone then
          s p
        else
          some (f (cascade_expected f s start ⟨p.n + 1, 2 * p.x, 2 * p.y⟩)
            (cascade_expected f s start ⟨p.n + 1, 2 * p.x + 1, 2 * p.y⟩)
            (cascade_expected f s start ⟨p.n + 1, 2 * p.x, 2 * p.y + 1⟩)
            (cascade_expected f s start ⟨p.n + 1, 2 * p.x + 1, 2 * p.y + 1⟩)) := by
      conv_lhs => rw [cascade_expected]
      rw [dif_neg (by omega)]
    have hkey : ∀ q, _process_tile f cur p q =
        (if q = p then cascade_expected f s start p else cur q) := by
      intro q
      unfold _process_tile
      rw [hx0, hx1, hx2, hx3, hEp]
      by_cases hall :
          ((cascade_expected f s start ⟨p.n + 1, 2 * p.x, 2 * p.y⟩).isNone &&
            (cascade_expected f s start ⟨p.n + 1, 2 * p.x + 1, 2 * p.y⟩).isNone &&
            (cascade_expected f s start ⟨p.n + 1, 2 * p.x, 2 * p.y + 1⟩).isNone &&
            (cascade_expected f s start ⟨p.n + 1, 2 * p.x + 1, 2 * p.y + 1⟩).isNone) = true
      · rw [if_pos hall, if_pos hall]
        by_cases hq : q = p
        · subst hq
          rw [if_pos rfl]
          exact hout q hpnew
        · rw [if_neg hq]
      · rw [if_neg hall, if_neg hall]
    have hstep_done : ∀ q ∈ p :: done, q.n < start := by
      intro q hq
      rcases List.mem_cons.mp hq with heq | hq2
      · rw [heq]
        exact hplt
      · exact hdlt q hq2
    have hstep_exp : ∀ q ∈ p :: done,
        _process_tile f cur p q = cascade_expected f s start q := by
      intro q hq
      rw [hkey q]
      rcases List.mem_cons.mp hq with heq | hq2
      · rw [if_pos heq, heq]
      · rw [if_neg (by intro heq2; rw [heq2] at hq2; exact hpnew hq2)]
        exact hdone q hq2
    have hstep_out : ∀ q, q ∉ p :: done → _process_tile f cur p q = s q := by
      intro q hq
      rw [hkey q, if_neg (by rintro rfl; exact hq (List.mem_cons_self q done))]
      exact hout q (fun hmem => hq (List.mem_cons_of_mem p hmem))
    obtain ⟨ihA, ihB⟩ := ih (p :: done) (_process_tile f cur p) hrest
      hstep_done hstep_exp hstep_out
    constructor
    · intro q hq
      show run_schedule f (_process_tile f cur p) rest q = _
      apply ihA
      rcases hq with hq | hq
      · exact Or.inl (List.mem_cons_of_mem p hq)
      · rcases List.mem_cons.mp hq with heq | hq2
        · exact Or.inl (by rw [heq]; exact List.mem_cons_self p done)
        · exact Or.inr hq2
    · intro q hqd hqt
      show run_schedule f (_process_tile f cur p) rest q = s q
      apply ihB
      · intro hq
        rcases List.mem_cons.mp hq with heq | hq2
        · exact hqt (by rw [heq]; exact List.mem_cons_self p rest)
        · exact hqd hq2
      · intro hq
        exact hqt (List.mem_cons_of_mem p hq)

/-- Claim C1: for every input pyramid, every merge function and every
processing order of the parallel cascade that respects the
child-before-parent dependency and covers all tiles shallower than the start
depth, the parallel run writes tiles bit-identical to the serial run
(level-by-level, deepest-first) at every in-range address shallower than the
start depth — sibling completion order does not affect any output tile. -/
theorem cascade_serial_parallel_equiv {α : Type}
    (f : Option α → Option α → Option α → Option α → α) (s : Store α)
    (start : Nat) (L : List Pos)
    (h1 : ready_order start [] L = true)
    (h2 : (serial_order start).all (fun p => decide (p ∈ L)) = true)
    (pos : Pos) (h3 : pos.n < start) (h4 : pos.x < 2 ^ pos.n)
    (h5 : pos.y < 2 ^ pos.n) :
    run_schedule f s L pos = run_schedule f s (serial_order start) pos := by
  have hser : ready_order start [] (serial_order start) = true :=
    serial_order_ready start start le_rfl []
      (fun q hq => absurd hq (List.not_mem_nil q))
      (fun hlt => absurd hlt (lt_irrefl start))
  have hmem : pos ∈ serial_order start := serial_order_complete start pos h3 h4 h5
  have hmemL : pos ∈ L := by
    rw [List.all_eq_true] at h2
    simpa using h2 pos hmem
  obtain ⟨hA, -⟩ := run_schedule_correct f s start L [] s h1
    (fun q hq => absurd hq (List.not_mem_nil q))
    (fun q hq => absurd hq (List.not_mem_nil q))
    (fun q _ => rfl)
  obtain ⟨hB, -⟩ := run_schedule_correct f s start (serial_order start) [] s hser
    (fun q hq => absurd hq (List.not_mem_nil q))
    (fun q hq => absurd hq (List.not_mem_nil q))
    (fun q _ => rfl)
  rw [hA pos (Or.inr hmemL), hB pos (Or.inr hmem)]

/-- Witness for `cascade_serial_parallel_equiv`: a depth-2 cascade whose
sibling order is scrambled relative to the serial order produces the same
root tile. -/
theorem cascade_serial_parallel_equiv_witness :
    run_schedule
      (fun a b c d : Option Nat => a.getD 0 + b.getD 0 + c.getD 0 + d.getD 0)
      (fun p => if p.n = 2 then some 1 else none)
      [⟨1, 1, 1⟩, ⟨1, 0, 0⟩, ⟨1, 1, 0⟩, ⟨1, 0, 1⟩, ⟨0, 0, 0⟩] rootPos =
    run_schedule
      (fun a b c d : Option Nat => a.getD 0 + b.getD 0 + c.getD 0 + d.getD 0)
      (fun p => if p.n = 2 then some 1 else none) (serial_order 2) rootPos :=
  cascade_serial_parallel_equiv _ _ 2 _ (by decide) (by decide) rootPos
    (by decide) (by decide) (by decide)

end Toasty
